import Mathlib

/-!
Verification of the SkyGeni sales-intelligence decision engine
(`src/decision_engine.py`, `src/metrics.py`) via a shallow embedding.

A dataset is a list of `Deal` records (one pandas row each).  All numeric
computation is over `ℚ` (pandas floats carry exact rational values on the
inputs considered here); dates are day numbers in `ℤ`.  The scipy
chi-square survival function is an external collaborator and is passed in
as an opaque parameter `sf : ℚ → ℕ → ℚ`.  `None` returns of the Python
code become `Option.none`.  The source stores Cramér's V itself; since
`Real.sqrt` is noncomputable we store its square (`cramers_v_sq`, always
nonnegative) and state theorems about `Real.sqrt cramers_v_sq`.
-/

set_option maxRecDepth 1000000
set_option maxHeartbeats 1000000

/-- One sales deal, with the schema of `load_sales_data` (`data_loader.py`):
categorical attributes, numeric amount and cycle days, the closed date
(modelled as a day number), and the derived `is_won` flag. -/
structure Deal where
  deal_id : ℕ
  sales_rep_id : String
  region : String
  industry : String
  product_type : String
  lead_source : String
  deal_stage : String
  deal_amount : ℚ
  sales_cycle_days : ℚ
  closed_date : ℤ
  is_won : Bool
deriving DecidableEq, Repr

/-- The categorical factors analysed by `WinRateDriverAnalyzer`
(`self.factors` in `decision_engine.py`). -/
inductive Factor where
  | region
  | industry
  | product_type
  | lead_source
  | deal_stage
  | sales_rep_id
deriving DecidableEq, Repr

/-- Column accessor for a factor. -/
def Factor.col : Factor → Deal → String
  | .region => Deal.region
  | .industry => Deal.industry
  | .product_type => Deal.product_type
  | .lead_source => Deal.lead_source
  | .deal_stage => Deal.deal_stage
  | .sales_rep_id => Deal.sales_rep_id

/-- Embeds `self.factors = ['region', 'industry', 'product_type', 'lead_source',
'deal_stage', 'sales_rep_id']`. -/
def factors : List Factor :=
  [.region, .industry, .product_type, .lead_source, .deal_stage, .sales_rep_id]

/-- Constant `MIN_DEALS_FOR_INSIGHT = 100` (module level). -/
def MIN_DEALS_FOR_INSIGHT : ℕ := 100

/-- Constant `MIN_DEALS_FOR_REP = 50` (the literal `50` in
`get_rep_performance_tiers`, named in `main.py`). -/
def MIN_DEALS_FOR_REP : ℕ := 50

/-- Mean of the `is_won` 0/1 column of a list of deals
(`series.mean()`; `0` on an empty list, a case the engine's guards make
unreachable where it matters). -/
def wonMean (l : List Deal) : ℚ :=
  ((l.filter (fun d => d.is_won)).length : ℚ) / (l.length : ℚ)

/-- Embeds `self.overall_win_rate = df['is_won'].mean() * 100`. -/
def overall_win_rate (df : List Deal) : ℚ := wonMean df * 100

/-- The distinct values of column `g`, the row (and group) keys of
`pd.crosstab` / `groupby`.  pandas returns them sorted; we keep the
`dedup` order, which fixes a deterministic order with the same member
set — no analysed quantity depends on the key order. -/
def categories (df : List Deal) (g : Deal → String) : List String :=
  (df.map g).dedup

/-- Number of deals in category `v` of column `g`. -/
def catCount (df : List Deal) (g : Deal → String) (v : String) : ℕ :=
  (df.filter (fun d => g d = v)).length

/-- Won deals in category `v` (the `is_won = 1` cell of the crosstab row). -/
def catWon (df : List Deal) (g : Deal → String) (v : String) : ℕ :=
  (df.filter (fun d => g d = v && d.is_won)).length

/-- Lost deals in category `v` (the `is_won = 0` cell of the crosstab row). -/
def catLost (df : List Deal) (g : Deal → String) (v : String) : ℕ :=
  (df.filter (fun d => g d = v && !d.is_won)).length

/-- The contingency table `pd.crosstab(self.df[factor], self.df['is_won'])`
as the list of its rows: one `(won, lost)` cell pair per category. -/
def cells (df : List Deal) (g : Deal → String) : List (ℕ × ℕ) :=
  (categories df g).map (fun v => (catWon df g v, catLost df g v))

/-- Embeds `contingency.values.sum()`, the raw total of the table's cells. -/
def tableTotal (df : List Deal) (g : Deal → String) : ℕ :=
  ((cells df g).map (fun p => p.1 + p.2)).sum

/-- Column sum of the `won` column of a table given by its rows. -/
def rowWins (cs : List (ℕ × ℕ)) : ℕ := (cs.map Prod.fst).sum

/-- Column sum of the `lost` column. -/
def rowLosses (cs : List (ℕ × ℕ)) : ℕ := (cs.map Prod.snd).sum

/-- Grand total `n` of the table. -/
def tableN (cs : List (ℕ × ℕ)) : ℕ := rowWins cs + rowLosses cs

/-- Number of columns of the crosstab: `pd.crosstab` only materialises the
`is_won` values that occur, so a column exists iff its total is positive. -/
def nColsOf (cs : List (ℕ × ℕ)) : ℕ :=
  (if 0 < rowWins cs then 1 else 0) + (if 0 < rowLosses cs then 1 else 0)

/-- Degrees of freedom `(rows − 1) * (cols − 1)` as computed by
`scipy.stats.chi2_contingency`. -/
def tableDof (cs : List (ℕ × ℕ)) : ℕ :=
  (cs.length - 1) * (nColsOf cs - 1)

/-- Embeds `min(contingency.shape) - 1` from the Cramér's V computation. -/
def minDim (cs : List (ℕ × ℕ)) : ℕ :=
  min cs.length (nColsOf cs) - 1

/-- Embeds `np.sign` on rationals. -/
def qsign (x : ℚ) : ℚ :=
  if 0 < x then 1 else if x < 0 then -1 else 0

/-- One cell's contribution `(observed − expected)² / expected` to the
chi-square statistic; with `corr = true` the observed value is first
moved toward the expected one by `0.5 * sign(expected − observed)`
(Yates' continuity correction as `scipy.stats.chi2_contingency` applies
it when `dof == 1`). -/
def cellTerm (corr : Bool) (o e : ℚ) : ℚ :=
  ((if corr then o + qsign (e - o) * (1 / 2) else o) - e) ^ 2 / e

/-- Pearson's sum over all cells of the table, expected frequencies from
the marginals: row `(w, l)` with row total `t` has expected cells
`t * W / n` and `t * L / n`. -/
def pearsonSum (corr : Bool) (cs : List (ℕ × ℕ)) : ℚ :=
  (cs.map (fun p =>
    cellTerm corr (p.1 : ℚ)
      (((p.1 : ℚ) + (p.2 : ℚ)) * (rowWins cs : ℚ) / (tableN cs : ℚ)) +
    cellTerm corr (p.2 : ℚ)
      (((p.1 : ℚ) + (p.2 : ℚ)) * (rowLosses cs : ℚ) / (tableN cs : ℚ)))).sum

/-- The chi-square statistic returned by `scipy.stats.chi2_contingency`
with its default `correction=True`: `0` for a degenerate table
(`dof == 0`), the Yates-corrected sum for a 2×2 table (`dof == 1`), the
plain Pearson sum otherwise. -/
def chiSqStat (cs : List (ℕ × ℕ)) : ℚ :=
  if tableDof cs = 0 then 0
  else if tableDof cs = 1 then pearsonSum true cs
  else pearsonSum false cs

/-- Modelled from the spec: the textbook statistic
`χ² = Σ (observed − expected)² / expected` over all cells, expected
frequencies from the marginals, with no continuity correction.  Used to
compare the code's statistic against the spec's formula. -/
def spec_chi2_standard (cs : List (ℕ × ℕ)) : ℚ :=
  (cs.map (fun p =>
    ((p.1 : ℚ) - ((p.1 : ℚ) + (p.2 : ℚ)) * (rowWins cs : ℚ) / (tableN cs : ℚ)) ^ 2 /
      (((p.1 : ℚ) + (p.2 : ℚ)) * (rowWins cs : ℚ) / (tableN cs : ℚ)) +
    ((p.2 : ℚ) - ((p.1 : ℚ) + (p.2 : ℚ)) * (rowLosses cs : ℚ) / (tableN cs : ℚ)) ^ 2 /
      (((p.1 : ℚ) + (p.2 : ℚ)) * (rowLosses cs : ℚ) / (tableN cs : ℚ)))).sum

/-- Modelled from the spec of Yates' correction: each cell contributes
`(|observed − expected| − 1/2)² / expected`, except that a cell with
`observed = expected` contributes `0`. -/
def spec_chi2_yates (cs : List (ℕ × ℕ)) : ℚ :=
  (cs.map (fun p =>
    (if (p.1 : ℚ) = ((p.1 : ℚ) + (p.2 : ℚ)) * (rowWins cs : ℚ) / (tableN cs : ℚ) then 0
     else (|(p.1 : ℚ) - ((p.1 : ℚ) + (p.2 : ℚ)) * (rowWins cs : ℚ) / (tableN cs : ℚ)| - 1 / 2) ^ 2 /
       (((p.1 : ℚ) + (p.2 : ℚ)) * (rowWins cs : ℚ) / (tableN cs : ℚ))) +
    (if (p.2 : ℚ) = ((p.1 : ℚ) + (p.2 : ℚ)) * (rowLosses cs : ℚ) / (tableN cs : ℚ) then 0
     else (|(p.2 : ℚ) - ((p.1 : ℚ) + (p.2 : ℚ)) * (rowLosses cs : ℚ) / (tableN cs : ℚ)| - 1 / 2) ^ 2 /
       (((p.1 : ℚ) + (p.2 : ℚ)) * (rowLosses cs : ℚ) / (tableN cs : ℚ))))).sum

/-- One row of `factor_stats` (`groupby(factor).agg(...)` plus the derived
columns): category value, deal count, win rate in percent, total revenue,
and deviation of the win rate from the company average. -/
structure CatStat where
  category : String
  deal_count : ℕ
  win_rate : ℚ
  total_revenue : ℚ
  win_rate_diff : ℚ
deriving DecidableEq, Repr, Inhabited

/-- The `factor_stats` table of `analyze_factor_impact`, one row per
category of `g`. -/
def categoryStats (df : List Deal) (g : Deal → String) : List CatStat :=
  (categories df g).map (fun v =>
    { category := v
      deal_count := catCount df g v
      win_rate := ((catWon df g v : ℚ) / (catCount df g v : ℚ)) * 100
      total_revenue := ((df.filter (fun d => g d = v)).map Deal.deal_amount).sum
      win_rate_diff := ((catWon df g v : ℚ) / (catCount df g v : ℚ)) * 100 -
        overall_win_rate df })

/-- First row attaining the maximal win rate (`idxmax` keeps the first
index of the maximum). -/
def bestStat : List CatStat → CatStat
  | [] => default
  | s :: rest => rest.foldl (fun acc x => if acc.win_rate < x.win_rate then x else acc) s

/-- First row attaining the minimal win rate (`idxmin`). -/
def worstStat : List CatStat → CatStat
  | [] => default
  | s :: rest => rest.foldl (fun acc x => if x.win_rate < acc.win_rate then x else acc) s

/-- The result dictionary of `analyze_factor_impact`.  `cramers_v_sq`
stores the square of the `cramers_v` value of the source (see the header
note); `effect_size` is the band of V, compared on squares. -/
structure FactorResult where
  factor : Factor
  chi_square : ℚ
  p_value : ℚ
  degrees_of_freedom : ℕ
  cramers_v_sq : ℚ
  significant : Bool
  effect_size : String
  category_stats : List CatStat
  best_category : String
  worst_category : String
  best_win_rate : ℚ
  worst_win_rate : ℚ
  spread : ℚ
deriving DecidableEq, Repr

/-- Embeds `analyze_factor_impact(self, factor)`: build the contingency table;
return `None` when its raw total is below `MIN_DEALS_FOR_INSIGHT`;
otherwise run the chi-square test (statistic, p-value from the survival
function `sf`, degrees of freedom), the per-category stats, Cramér's V
(`sqrt(chi2 / (n * min_dim))` when `min_dim > 0`, else `0` — we store the
radicand) and the best/worst summary.  `scipy.stats.chi2_contingency`
returns `p = 1` directly when `dof == 0`; its "zero expected frequency"
error is unreachable because every materialised row and column of a
crosstab has a positive total. -/
def analyze_factor_impact (sf : ℚ → ℕ → ℚ) (df : List Deal) (factor : Factor) :
    Option FactorResult :=
  let g := factor.col
  if tableTotal df g < MIN_DEALS_FOR_INSIGHT then none
  else
    let cs := cells df g
    let chi2 := chiSqStat cs
    let dof := tableDof cs
    let p : ℚ := if dof = 0 then 1 else sf chi2 dof
    let vsq : ℚ :=
      if 0 < minDim cs then chi2 / ((tableN cs : ℚ) * (minDim cs : ℚ)) else 0
    let stats := categoryStats df g
    some
      { factor := factor
        chi_square := chi2
        p_value := p
        degrees_of_freedom := dof
        cramers_v_sq := vsq
        significant := decide (p < 5 / 100)
        effect_size :=
          if (25 / 100 : ℚ) ^ 2 < vsq then "large"
          else if (15 / 100 : ℚ) ^ 2 < vsq then "medium" else "small"
        category_stats := stats
        best_category := (bestStat stats).category
        worst_category := (worstStat stats).category
        best_win_rate := (bestStat stats).win_rate
        worst_win_rate := (worstStat stats).win_rate
        spread := (bestStat stats).win_rate - (worstStat stats).win_rate }

/-- Embeds `analyze_all_factors`: run `analyze_factor_impact` over `self.factors`
in order, keeping the non-`None` results (`self.results`, whose dict
iteration order is this insertion order). -/
def analyze_all_factors (sf : ℚ → ℕ → ℚ) (df : List Deal) :
    List (Factor × FactorResult) :=
  factors.filterMap (fun f => (analyze_factor_impact sf df f).map (fun r => (f, r)))

/-- The `sorted(self.results.items(), key=cramers_v, reverse=True)` step of
`analyze_all_factors`.  Python's `sorted` is a stable sort; descending on
V is descending on V² since V ≥ 0, and `insertionSort` with this
total preorder is stable with the same tie order. -/
def ranked_results (sf : ℚ → ℕ → ℚ) (df : List Deal) :
    List (Factor × FactorResult) :=
  List.insertionSort (fun a b => b.2.cramers_v_sq ≤ a.2.cramers_v_sq)
    (analyze_all_factors sf df)

/-- Embeds `self.factor_ranking = [f[0] for f in factor_ranking]`. -/
def factor_ranking (sf : ℚ → ℕ → ℚ) (df : List Deal) : List Factor :=
  (ranked_results sf df).map Prod.fst

/-- Python's decimal `round(x, 1)` (half-to-even), on rationals. -/
def roundHalfEven (x : ℚ) : ℤ :=
  if Int.fract x < 1 / 2 then ⌊x⌋
  else if (1 : ℚ) / 2 < Int.fract x then ⌊x⌋ + 1
  else if ⌊x⌋ % 2 = 0 then ⌊x⌋ else ⌊x⌋ + 1

/-- Embeds `round(x, 1)` to one decimal place. -/
def round1 (x : ℚ) : ℚ := (roundHalfEven (x * 10) : ℚ) / 10

/-- Embeds `_generate_recommendation`: factor-keyed template strings; the
fallback (`dict.get` default) is the generic investigate message. -/
def generate_recommendation (factor : Factor) (category : String) : String :=
  match factor with
  | .region => "Analyze " ++ category ++ " sales process. Consider region-specific training, local competitive analysis, or resource reallocation."
  | .industry => "Review " ++ category ++ " vertical strategy. May need industry-specific value propositions, case studies, or specialized sales support."
  | .product_type => "Evaluate " ++ category ++ " pricing, positioning, and competitive landscape. Consider product training for sales team."
  | .lead_source => "Assess quality of " ++ category ++ " leads with marketing. May need better lead qualification criteria or nurturing programs."
  | .deal_stage => "Investigate objections causing drop-off at " ++ category ++ " stage. Review sales enablement materials and talk tracks."
  | .sales_rep_id => "Investigate root cause for " ++ category ++ " underperformance."

/-- One opportunity dict of `get_improvement_opportunities`.
`potential_additional_wins` is `int(abs(diff) / 100 * deal_count)`:
Python's `int()` truncates toward zero, which on this nonnegative value
is the floor. -/
structure Opportunity where
  factor : Factor
  category : String
  current_win_rate : ℚ
  vs_average : ℚ
  deal_count : ℕ
  potential_additional_wins : ℤ
  priority : String
  recommendation : String
deriving DecidableEq, Repr

/-- Embeds `get_improvement_opportunities`: for every analysed factor except
`sales_rep_id`, every category with `win_rate_diff < -5` and
`deal_count > 100` yields an opportunity; the list is then stable-sorted
by `potential_additional_wins` descending. -/
def get_improvement_opportunities (sf : ℚ → ℕ → ℚ) (df : List Deal) :
    List Opportunity :=
  List.insertionSort (fun a b => b.potential_additional_wins ≤ a.potential_additional_wins)
    ((analyze_all_factors sf df).flatMap (fun fr =>
      if fr.1 = Factor.sales_rep_id then []
      else fr.2.category_stats.filterMap (fun cst =>
        if cst.win_rate_diff < -5 ∧ 100 < cst.deal_count then
          some
            { factor := fr.1
              category := cst.category
              current_win_rate := round1 cst.win_rate
              vs_average := round1 cst.win_rate_diff
              deal_count := cst.deal_count
              potential_additional_wins := ⌊|cst.win_rate_diff| / 100 * (cst.deal_count : ℚ)⌋
              priority := if cst.win_rate_diff < (-10 : ℚ) then "High" else "Medium"
              recommendation := generate_recommendation fr.1 cst.category }
        else none)))

/-- The four tier lists of `get_rep_performance_tiers`; entries are
`(rep, rate, count)` tuples as appended by the source. -/
structure RepTiers where
  top_performers : List (String × ℚ × ℕ)
  solid_performers : List (String × ℚ × ℕ)
  needs_improvement : List (String × ℚ × ℕ)
  at_risk : List (String × ℚ × ℕ)
deriving DecidableEq, Repr

/-- The `if/elif` chain of the tier loop: `0` = skipped (`count < 50`),
`1` = top, `2` = solid, `3` = needs improvement, `4` = at risk. -/
def tierOf (ow : ℚ) (s : CatStat) : ℕ :=
  if s.deal_count < MIN_DEALS_FOR_REP then 0
  else if ow + 10 ≤ s.win_rate then 1
  else if ow ≤ s.win_rate then 2
  else if ow - 10 ≤ s.win_rate then 3
  else 4

/-- The `(rep, rate, count)` tuple appended to a tier list. -/
def tierEntry (s : CatStat) : String × ℚ × ℕ :=
  (s.category, s.win_rate, s.deal_count)

/-- Embeds `get_rep_performance_tiers`: runs
`analyze_factor_impact('sales_rep_id')` and partitions its
`category_stats` by `tierOf` (a single in-order pass, so each tier list
keeps the category order).  When the analysis returns `None` the source
immediately subscripts it (`result['category_stats']`), raising
`TypeError: 'NoneType' object is not subscriptable`; `none` here models
that raised failure. -/
def get_rep_performance_tiers (sf : ℚ → ℕ → ℚ) (df : List Deal) :
    Option RepTiers :=
  match analyze_factor_impact sf df Factor.sales_rep_id with
  | none => none
  | some result =>
    let ow := overall_win_rate df
    some
      { top_performers :=
          (result.category_stats.filter (fun s => tierOf ow s = 1)).map tierEntry
        solid_performers :=
          (result.category_stats.filter (fun s => tierOf ow s = 2)).map tierEntry
        needs_improvement :=
          (result.category_stats.filter (fun s => tierOf ow s = 3)).map tierEntry
        at_risk :=
          (result.category_stats.filter (fun s => tierOf ow s = 4)).map tierEntry }

/-- Embeds `df[df['sales_rep_id'] == rep_id]` (`metrics.py`). -/
def repDeals (df : List Deal) (rep_id : String) : List Deal :=
  df.filter (fun d => d.sales_rep_id = rep_id)

/-- Embeds `rep_data['closed_date'].max()`; only evaluated on nonempty frames
(the caller returns early when the rep has no deals). -/
def maxClosedDate : List Deal → ℤ
  | [] => 0
  | d :: rest => rest.foldl (fun m x => max m x.closed_date) d.closed_date

/-- Embeds `recent_deals = rep_data[rep_data['closed_date'] >= max_date -
Timedelta(days=recent_days)]`. -/
def recent_deals (df : List Deal) (rep_id : String) (recent_days : ℤ) : List Deal :=
  (repDeals df rep_id).filter
    (fun d => maxClosedDate (repDeals df rep_id) - recent_days ≤ d.closed_date)

/-- Embeds `historical_deals`, the trailing `historical_days` window anchored at
the same per-rep max closed date. -/
def historical_deals (df : List Deal) (rep_id : String) (historical_days : ℤ) : List Deal :=
  (repDeals df rep_id).filter
    (fun d => maxClosedDate (repDeals df rep_id) - historical_days ≤ d.closed_date)

/-- Embeds `calculate_rep_momentum_index` (`metrics.py`): `NaN` (here `none`) when
the rep has no deals, when the recent window holds fewer than 3 deals or
the historical window fewer than 5, or when the historical win rate is
exactly 0; otherwise the ratio of the recent to the historical win rate.
The source's default windows are `recent_days = 30`,
`historical_days = 90`. -/
def calculate_rep_momentum_index (df : List Deal) (rep_id : String)
    (recent_days historical_days : ℤ) : Option ℚ :=
  let rep_data := repDeals df rep_id
  if rep_data.length = 0 then none
  else
    let recent := recent_deals df rep_id recent_days
    let hist := historical_deals df rep_id historical_days
    if recent.length < 3 ∨ hist.length < 5 then none
    else if wonMean hist = 0 then none
    else some (wonMean recent / wonMean hist)

/-- Deal constructor for the concrete datasets below (fields the claims
never read get fixed values). -/
def mkDeal (rep reg : String) (won : Bool) (closed : ℤ) : Deal :=
  { deal_id := 0, sales_rep_id := rep, region := reg, industry := "I",
    product_type := "P", lead_source := "L", deal_stage := "S",
    deal_amount := 1, sales_cycle_days := 1, closed_date := closed,
    is_won := won }

/-- Dataset of 100 deals in two regions: region A 30 won / 20 lost, region B
20 won / 30 lost — a 2×2 contingency table passing the ≥100 gate. -/
def twoCatDf : List Deal :=
  List.replicate 30 (mkDeal "r" "A" true 0) ++
  List.replicate 20 (mkDeal "r" "A" false 0) ++
  List.replicate 20 (mkDeal "r" "B" true 0) ++
  List.replicate 30 (mkDeal "r" "B" false 0)

/-- Dataset of 10 deals of a single rep: every factor's table is under the 100-deal
gate. -/
def smallDf : List Deal := List.replicate 10 (mkDeal "r" "A" true 0)

/-- Dataset of 120 deals of two reps (60 each, above the 50-deal rep floor), passing
the 100-deal gate for `sales_rep_id`. -/
def twoRepDf : List Deal :=
  List.replicate 40 (mkDeal "p" "A" true 0) ++
  List.replicate 20 (mkDeal "p" "A" false 0) ++
  List.replicate 20 (mkDeal "q" "A" true 0) ++
  List.replicate 40 (mkDeal "q" "A" false 0)

/-- One rep with 5 deals: 3 in the last 30 days of their activity
(2 won), all 5 in the last 90 (3 won). -/
def momentumDf : List Deal :=
  [mkDeal "m" "A" true 0, mkDeal "m" "A" true (-10), mkDeal "m" "A" false (-20),
   mkDeal "m" "A" false (-40), mkDeal "m" "A" true (-50)]

/-- A concrete stand-in for the opaque chi-square survival function, used
to instantiate witnesses. -/
def sfZero : ℚ → ℕ → ℚ := fun _ _ => 0

/-- Splitting a filter by a second Boolean condition splits its length. -/
theorem length_filter_and_add {α : Type} (l : List α) (p q : α → Bool) :
    (l.filter (fun d => p d && q d)).length + (l.filter (fun d => p d && !q d)).length
      = (l.filter p).length := by
  induction l with
  | nil => simp
  | cons a t ih =>
    by_cases hp : p a
    · by_cases hq : q a <;> simp [List.filter_cons, hp, hq] <;> omega
    · simp [List.filter_cons, hp, ih]

/-- Summing the indicator of one value over a list counts its occurrences. -/
theorem sum_map_ite_one {β : Type} [DecidableEq β] (vs : List β) (b : β) :
    (vs.map (fun v => if b = v then (1 : ℕ) else 0)).sum = vs.count b := by
  induction vs with
  | nil => simp
  | cons v t ih =>
    rw [List.map_cons, List.sum_cons, ih]
    by_cases h : b = v
    · subst h
      rw [List.count_cons_self, if_pos rfl]
      omega
    · rw [List.count_cons_of_ne h, if_neg h]
      omega

/-- Partition of a list's length over a duplicate-free, complete list of
key values. -/
theorem sum_map_count_eq_length {α β : Type} [DecidableEq β] (l : List α) (g : α → β)
    (vs : List β) (hnd : vs.Nodup) (hc : ∀ x ∈ l, g x ∈ vs) :
    (vs.map (fun v => (l.filter (fun x => g x = v)).length)).sum = l.length := by
  induction l with
  | nil => simp
  | cons a t ih =>
    have ht : ∀ x ∈ t, g x ∈ vs := fun x hx => hc x (List.mem_cons_of_mem _ hx)
    have ha : g a ∈ vs := hc a (List.mem_cons_self _ _)
    have key : ∀ v, (((a :: t).filter (fun x => g x = v)).length : ℕ)
        = (t.filter (fun x => g x = v)).length + (if g a = v then 1 else 0) := by
      intro v; by_cases h : g a = v <;> simp [List.filter_cons, h]
    rw [List.map_congr_left (fun v _ => key v), List.sum_map_add, ih ht,
        sum_map_ite_one, List.count_eq_one_of_mem hnd ha]
    simp

/-- The two crosstab cells of a category sum to its deal count. -/
theorem catWon_add_catLost (df : List Deal) (g : Deal → String) (v : String) :
    catWon df g v + catLost df g v = catCount df g v :=
  length_filter_and_add df (fun d => decide (g d = v)) (fun d => d.is_won)

/-- The crosstab's raw cell total is the number of rows of the dataset. -/
theorem tableTotal_eq_length (df : List Deal) (g : Deal → String) :
    tableTotal df g = df.length := by
  unfold tableTotal cells
  rw [List.map_map]
  have h1 : ∀ v ∈ categories df g,
      ((fun p : ℕ × ℕ => p.1 + p.2) ∘ fun v => (catWon df g v, catLost df g v)) v
        = (df.filter (fun x => g x = v)).length := by
    intro v _
    simpa using catWon_add_catLost df g v
  rw [List.map_congr_left h1]
  exact sum_map_count_eq_length df g (categories df g) (List.nodup_dedup _)
    (fun x hx => List.mem_dedup.2 (List.mem_map_of_mem g hx))

/-- Every row of a materialised contingency table has a positive total. -/
theorem cells_mem_pos {df : List Deal} {g : Deal → String} {p : ℕ × ℕ}
    (hp : p ∈ cells df g) : 0 < p.1 + p.2 := by
  rcases List.mem_map.1 hp with ⟨v, hv, rfl⟩
  rcases List.mem_map.1 (List.mem_dedup.1 hv) with ⟨x, hx, rfl⟩
  have hx' : x ∈ df.filter (fun d => g d = g x) := List.mem_filter.2 ⟨hx, by simp⟩
  have : 0 < catCount df g (g x) := List.length_pos_of_mem hx'
  simpa [catWon_add_catLost] using this

/-- The table's column-wise grand total agrees with its raw cell total. -/
theorem tableN_cells (df : List Deal) (g : Deal → String) :
    tableN (cells df g) = tableTotal df g := by
  unfold tableN rowWins rowLosses tableTotal
  rw [← List.sum_map_add]

/-- The sign function is odd. -/
theorem qsign_neg (x : ℚ) : qsign (-x) = -qsign x := by
  unfold qsign; split_ifs <;> linarith

/-- Without correction a cell contributes the plain Pearson term. -/
theorem cellTerm_false (o e : ℚ) : cellTerm false o e = (o - e) ^ 2 / e := rfl

/-- The corrected cell term as a function of the deviation `o − e`. -/
theorem cellTerm_true_eq (o e : ℚ) :
    cellTerm true o e = ((o - e) - qsign (o - e) * (1 / 2)) ^ 2 / e := by
  have h : cellTerm true o e = (o + qsign (e - o) * (1 / 2) - e) ^ 2 / e := rfl
  rw [h, show e - o = -(o - e) by ring, qsign_neg]
  ring

/-- The corrected squared deviation, written with an absolute value. -/
theorem psi_eq_of_ne {s : ℚ} (h : s ≠ 0) :
    (s - qsign s * (1 / 2)) ^ 2 = (|s| - 1 / 2) ^ 2 := by
  rcases h.lt_or_lt with hneg | hpos
  · rw [abs_of_neg hneg]; unfold qsign
    rw [if_neg (by linarith), if_pos hneg]; ring
  · rw [abs_of_pos hpos]; unfold qsign
    rw [if_pos hpos]
    ring

/-- The corrected squared deviation is even in the deviation. -/
theorem psi_neg (s : ℚ) :
    ((-s) - qsign (-s) * (1 / 2)) ^ 2 = (s - qsign s * (1 / 2)) ^ 2 := by
  rw [qsign_neg]; ring

/-- Large deviations: the correction shrinks the squared deviation. -/
theorem psi_le_sq {s : ℚ} (h : 1 / 4 ≤ |s|) :
    (s - qsign s * (1 / 2)) ^ 2 ≤ s ^ 2 := by
  have hne : s ≠ 0 := by
    intro h0; rw [h0] at h; norm_num at h
  rw [psi_eq_of_ne hne, ← sq_abs s]
  nlinarith [abs_nonneg s]

/-- Small deviations: the corrected squared deviation is at most 1/4. -/
theorem psi_le_quarter {s : ℚ} (h : |s| ≤ 1 / 4) :
    (s - qsign s * (1 / 2)) ^ 2 ≤ 1 / 4 := by
  by_cases hne : s = 0
  · subst hne; unfold qsign; norm_num
  · rw [psi_eq_of_ne hne]
    nlinarith [abs_nonneg s]

/-- Cell terms are nonnegative whenever the expected value is. -/
theorem cellTerm_nonneg (corr : Bool) (o e : ℚ) (he : 0 ≤ e) :
    0 ≤ cellTerm corr o e :=
  div_nonneg (sq_nonneg _) he

/-- Pearson's sum (with or without correction) is nonnegative. -/
theorem pearsonSum_nonneg (corr : Bool) (cs : List (ℕ × ℕ)) :
    0 ≤ pearsonSum corr cs := by
  unfold pearsonSum
  apply List.sum_nonneg
  intro x hx
  rcases List.mem_map.1 hx with ⟨p, hp, rfl⟩
  have e1 : (0 : ℚ) ≤ ((p.1 : ℚ) + (p.2 : ℚ)) * (rowWins cs : ℚ) / (tableN cs : ℚ) := by
    positivity
  have e2 : (0 : ℚ) ≤ ((p.1 : ℚ) + (p.2 : ℚ)) * (rowLosses cs : ℚ) / (tableN cs : ℚ) := by
    positivity
  exact add_nonneg (cellTerm_nonneg _ _ _ e1) (cellTerm_nonneg _ _ _ e2)

/-- The statistic the source computes is nonnegative. -/
theorem chiSqStat_nonneg (cs : List (ℕ × ℕ)) : 0 ≤ chiSqStat cs := by
  unfold chiSqStat
  split_ifs
  · norm_num
  · exact pearsonSum_nonneg true cs
  · exact pearsonSum_nonneg false cs

/-- One corrected cell in the spec's form: zero at a perfect fit, else
the `(|observed − expected| − 1/2)²/expected` term. -/
theorem cellTerm_true_spec (o e : ℚ) :
    cellTerm true o e = if o = e then 0 else (|o - e| - 1 / 2) ^ 2 / e := by
  rw [cellTerm_true_eq]
  by_cases h : o = e
  · rw [if_pos h, h]
    simp [qsign]
  · rw [if_neg h, psi_eq_of_ne (sub_ne_zero.2 h)]

/-- The Yates-corrected sum equals the spec's formulation of Yates'
correction. -/
theorem pearsonSum_true_eq_spec_yates (cs : List (ℕ × ℕ)) :
    pearsonSum true cs = spec_chi2_yates cs := by
  unfold pearsonSum spec_chi2_yates
  congr 1
  apply List.map_congr_left
  intro p _
  rw [cellTerm_true_spec, cellTerm_true_spec]

/-- Subtraction distributes over a mapped list sum. -/
theorem list_sum_map_sub {α : Type} (l : List α) (f g : α → ℚ) :
    (l.map (fun x => f x - g x)).sum = (l.map f).sum - (l.map g).sum := by
  induction l with
  | nil => simp
  | cons a t ih => simp [ih]; ring

/-- A single-row table contributes nothing to the standard statistic. -/
theorem degenerate_row (w l : ℚ) (hn : w + l ≠ 0) :
    (w - (w + l) * w / (w + l)) ^ 2 / ((w + l) * w / (w + l)) +
      (l - (w + l) * l / (w + l)) ^ 2 / ((w + l) * l / (w + l)) = 0 := by
  have e1 : (w + l) * w / (w + l) = w := by
    rw [mul_comm, mul_div_assoc, div_self hn, mul_one]
  have e2 : (w + l) * l / (w + l) = l := by
    rw [mul_comm, mul_div_assoc, div_self hn, mul_one]
  rw [e1, e2, sub_self, sub_self]
  simp

/-- On a degenerate table (`dof = 0`, i.e. one row or one materialised
column) the spec's standard statistic is `0`, matching the scipy
shortcut. -/
theorem spec_chi2_standard_eq_zero (cs : List (ℕ × ℕ)) (ht : ∀ p ∈ cs, 0 < p.1 + p.2)
    (hd : tableDof cs = 0) : spec_chi2_standard cs = 0 := by
  by_cases hemp : cs = []
  · subst hemp; simp [spec_chi2_standard]
  have hd' : cs.length ≤ 1 ∨ nColsOf cs ≤ 1 := by
    unfold tableDof at hd
    rcases Nat.mul_eq_zero.1 hd with h | h
    · left; omega
    · right; omega
  rcases hd' with hlen | hcols
  · obtain ⟨p, rfl⟩ : ∃ p, cs = [p] := by
      have hpos : 0 < cs.length := List.length_pos.2 hemp
      exact List.length_eq_one.1 (by omega)
    have ht0 := ht p (by simp)
    have hn : ((p.1 : ℚ) + (p.2 : ℚ)) ≠ 0 := by
      have : (0 : ℚ) < (p.1 : ℚ) + (p.2 : ℚ) := by exact_mod_cast ht0
      linarith
    have hw : (rowWins [p] : ℚ) = (p.1 : ℚ) := by simp [rowWins]
    have hlq : (rowLosses [p] : ℚ) = (p.2 : ℚ) := by simp [rowLosses]
    have hnq : (tableN [p] : ℚ) = (p.1 : ℚ) + (p.2 : ℚ) := by
      simp [tableN, rowWins, rowLosses]
    unfold spec_chi2_standard
    simp only [List.map_cons, List.map_nil, List.sum_cons, List.sum_nil, add_zero,
      hw, hlq, hnq]
    rw [degenerate_row _ _ hn]
  · have hWL : rowWins cs = 0 ∨ rowLosses cs = 0 := by
      unfold nColsOf at hcols
      by_contra hcon
      push_neg at hcon
      rcases hcon with ⟨hw, hl⟩
      rw [if_pos (Nat.pos_of_ne_zero hw), if_pos (Nat.pos_of_ne_zero hl)] at hcols
      omega
    rcases hWL with hW0 | hL0
    · have hall : ∀ p ∈ cs, p.1 = 0 := by
        intro p hp
        exact List.sum_eq_zero_iff.1 hW0 _ (List.mem_map_of_mem _ hp)
      have hLn : (rowLosses cs : ℚ) = (tableN cs : ℚ) := by
        unfold tableN; rw [hW0]; push_cast; ring
      have hnne : (tableN cs : ℚ) ≠ 0 := by
        obtain ⟨p0, hp0⟩ := List.exists_mem_of_ne_nil cs hemp
        have h1 := ht p0 hp0
        have h2 := hall p0 hp0
        have h3 : p0.2 ≤ rowLosses cs :=
          List.single_le_sum (fun x _ => Nat.zero_le x) _ (List.mem_map_of_mem _ hp0)
        have h4 : 0 < tableN cs := by unfold tableN; omega
        exact_mod_cast h4.ne'
      unfold spec_chi2_standard
      apply List.sum_eq_zero
      intro x hx
      rcases List.mem_map.1 hx with ⟨p, hp, rfl⟩
      have hp1 : p.1 = 0 := hall p hp
      have e1 : ((p.1 : ℚ) + (p.2 : ℚ)) * (rowWins cs : ℚ) / (tableN cs : ℚ) = 0 := by
        rw [hW0]; push_cast; ring
      have e2 : ((p.1 : ℚ) + (p.2 : ℚ)) * (rowLosses cs : ℚ) / (tableN cs : ℚ) = (p.2 : ℚ) := by
        rw [hLn, hp1]; push_cast
        rw [zero_add, mul_div_assoc, div_self hnne, mul_one]
      rw [e1, e2, hp1]
      push_cast
      simp
    · have hall : ∀ p ∈ cs, p.2 = 0 := by
        intro p hp
        exact List.sum_eq_zero_iff.1 hL0 _ (List.mem_map_of_mem _ hp)
      have hWn : (rowWins cs : ℚ) = (tableN cs : ℚ) := by
        unfold tableN; rw [hL0]; push_cast; ring
      have hnne : (tableN cs : ℚ) ≠ 0 := by
        obtain ⟨p0, hp0⟩ := List.exists_mem_of_ne_nil cs hemp
        have h1 := ht p0 hp0
        have h2 := hall p0 hp0
        have h3 : p0.1 ≤ rowWins cs :=
          List.single_le_sum (fun x _ => Nat.zero_le x) _ (List.mem_map_of_mem _ hp0)
        have h4 : 0 < tableN cs := by unfold tableN; omega
        exact_mod_cast h4.ne'
      unfold spec_chi2_standard
      apply List.sum_eq_zero
      intro x hx
      rcases List.mem_map.1 hx with ⟨p, hp, rfl⟩
      have hp2 : p.2 = 0 := hall p hp
      have e1 : ((p.1 : ℚ) + (p.2 : ℚ)) * (rowWins cs : ℚ) / (tableN cs : ℚ) = (p.1 : ℚ) := by
        rw [hWn, hp2]; push_cast
        rw [add_zero, mul_div_assoc, div_self hnne, mul_one]
      have e2 : ((p.1 : ℚ) + (p.2 : ℚ)) * (rowLosses cs : ℚ) / (tableN cs : ℚ) = 0 := by
        rw [hL0]; push_cast; ring
      rw [e1, e2, hp2]
      push_cast
      simp

/-- Away from the 2×2 case the source's statistic is exactly the spec's
standard formula. -/
theorem chiSqStat_eq_spec_standard (cs : List (ℕ × ℕ)) (ht : ∀ p ∈ cs, 0 < p.1 + p.2)
    (h1 : tableDof cs ≠ 1) : chiSqStat cs = spec_chi2_standard cs := by
  unfold chiSqStat
  by_cases h0 : tableDof cs = 0
  · rw [if_pos h0, spec_chi2_standard_eq_zero cs ht h0]
  · rw [if_neg h0, if_neg h1]
    unfold pearsonSum spec_chi2_standard
    congr 1

/-- Casting the won-column sum into `ℚ`. -/
theorem sum_cast_fst (cs : List (ℕ × ℕ)) :
    (cs.map (fun p : ℕ × ℕ => (p.1 : ℚ))).sum = (rowWins cs : ℚ) := by
  unfold rowWins
  rw [Nat.cast_list_sum, List.map_map]
  rfl

/-- Casting the lost-column sum into `ℚ`. -/
theorem sum_cast_snd (cs : List (ℕ × ℕ)) :
    (cs.map (fun p : ℕ × ℕ => (p.2 : ℚ))).sum = (rowLosses cs : ℚ) := by
  unfold rowLosses
  rw [Nat.cast_list_sum, List.map_map]
  rfl

/-- Casting the row totals' sum into `ℚ`. -/
theorem sum_cast_pair_add (cs : List (ℕ × ℕ)) :
    (cs.map (fun p : ℕ × ℕ => (p.1 : ℚ) + (p.2 : ℚ))).sum = (tableN cs : ℚ) := by
  rw [List.sum_map_add, sum_cast_fst, sum_cast_snd]
  unfold tableN
  push_cast
  ring

/-- Algebraic identity behind the chi-square bound: one row's two Pearson
terms, written against the row's share of the grand total. -/
theorem row_identity (w l W L : ℚ) (ht : 0 < w + l) (hW : 0 < W) (hL : 0 < L) :
    (w - (w + l) * W / (W + L)) ^ 2 / ((w + l) * W / (W + L)) +
      (l - (w + l) * L / (W + L)) ^ 2 / ((w + l) * L / (W + L))
      = (W + L) * (w ^ 2 / ((w + l) * W) + l ^ 2 / ((w + l) * L)) - (w + l) := by
  have h1 : w + l ≠ 0 := ne_of_gt ht
  have h2 : W ≠ 0 := ne_of_gt hW
  have h3 : L ≠ 0 := ne_of_gt hL
  have h4 : W + L ≠ 0 := ne_of_gt (by linarith)
  field_simp
  ring

/-- One row's share in the `S ≤ cols` bound. -/
theorem row_A_le (w l W L : ℚ) (hw : 0 ≤ w) (hl : 0 ≤ l) (ht : 0 < w + l)
    (hW : 0 < W) (hL : 0 < L) :
    w ^ 2 / ((w + l) * W) + l ^ 2 / ((w + l) * L) ≤ w / W + l / L := by
  have h1 : w ^ 2 / ((w + l) * W) ≤ w / W := by
    rw [div_le_div_iff₀ (by positivity) hW]
    nlinarith [mul_nonneg (mul_nonneg hw hl) hW.le]
  have h2 : l ^ 2 / ((w + l) * L) ≤ l / L := by
    rw [div_le_div_iff₀ (by positivity) hL]
    nlinarith [mul_nonneg (mul_nonneg hl hw) hL.le]
  linarith

/-- The uncorrected Pearson statistic of a table with both outcome columns
present is at most the grand total (hence Cramér's V ≤ 1 there). -/
theorem pearsonSum_false_le (cs : List (ℕ × ℕ)) (ht : ∀ p ∈ cs, 0 < p.1 + p.2)
    (hW : 0 < rowWins cs) (hL : 0 < rowLosses cs) :
    pearsonSum false cs ≤ (tableN cs : ℚ) := by
  have hWq : (0 : ℚ) < (rowWins cs : ℚ) := by exact_mod_cast hW
  have hLq : (0 : ℚ) < (rowLosses cs : ℚ) := by exact_mod_cast hL
  have hNq : (tableN cs : ℚ) = (rowWins cs : ℚ) + (rowLosses cs : ℚ) := by
    unfold tableN; push_cast; ring
  have hrow : ∀ p ∈ cs,
      cellTerm false (p.1 : ℚ)
          (((p.1 : ℚ) + (p.2 : ℚ)) * (rowWins cs : ℚ) / (tableN cs : ℚ)) +
        cellTerm false (p.2 : ℚ)
          (((p.1 : ℚ) + (p.2 : ℚ)) * (rowLosses cs : ℚ) / (tableN cs : ℚ))
      = (tableN cs : ℚ) * ((p.1 : ℚ) ^ 2 / (((p.1 : ℚ) + (p.2 : ℚ)) * (rowWins cs : ℚ)) +
          (p.2 : ℚ) ^ 2 / (((p.1 : ℚ) + (p.2 : ℚ)) * (rowLosses cs : ℚ)))
        - ((p.1 : ℚ) + (p.2 : ℚ)) := by
    intro p hp
    have htq : (0 : ℚ) < (p.1 : ℚ) + (p.2 : ℚ) := by exact_mod_cast ht p hp
    rw [cellTerm_false, cellTerm_false, hNq]
    exact row_identity _ _ _ _ htq hWq hLq
  unfold pearsonSum
  rw [List.map_congr_left hrow,
    list_sum_map_sub cs
      (fun p => (tableN cs : ℚ) * ((p.1 : ℚ) ^ 2 / (((p.1 : ℚ) + (p.2 : ℚ)) * (rowWins cs : ℚ)) +
        (p.2 : ℚ) ^ 2 / (((p.1 : ℚ) + (p.2 : ℚ)) * (rowLosses cs : ℚ))))
      (fun p => (p.1 : ℚ) + (p.2 : ℚ)),
    List.sum_map_mul_left, sum_cast_pair_add]
  have hA_le : (cs.map (fun p : ℕ × ℕ =>
      (p.1 : ℚ) ^ 2 / (((p.1 : ℚ) + (p.2 : ℚ)) * (rowWins cs : ℚ)) +
        (p.2 : ℚ) ^ 2 / (((p.1 : ℚ) + (p.2 : ℚ)) * (rowLosses cs : ℚ)))).sum
      ≤ (cs.map (fun p : ℕ × ℕ =>
          (p.1 : ℚ) / (rowWins cs : ℚ) + (p.2 : ℚ) / (rowLosses cs : ℚ))).sum := by
    apply List.sum_le_sum
    intro p hp
    have htq : (0 : ℚ) < (p.1 : ℚ) + (p.2 : ℚ) := by exact_mod_cast ht p hp
    exact row_A_le _ _ _ _ (by positivity) (by positivity) htq hWq hLq
  have hB : (cs.map (fun p : ℕ × ℕ =>
      (p.1 : ℚ) / (rowWins cs : ℚ) + (p.2 : ℚ) / (rowLosses cs : ℚ))).sum = 2 := by
    rw [List.sum_map_add]
    have b1 : (cs.map (fun p : ℕ × ℕ => (p.1 : ℚ) / (rowWins cs : ℚ))).sum = 1 := by
      simp only [div_eq_inv_mul]
      rw [List.sum_map_mul_left, sum_cast_fst]
      exact inv_mul_cancel₀ (ne_of_gt hWq)
    have b2 : (cs.map (fun p : ℕ × ℕ => (p.2 : ℚ) / (rowLosses cs : ℚ))).sum = 1 := by
      simp only [div_eq_inv_mul]
      rw [List.sum_map_mul_left, sum_cast_snd]
      exact inv_mul_cancel₀ (ne_of_gt hLq)
    rw [b1, b2]
    norm_num
  have hNpos : (0 : ℚ) < (tableN cs : ℚ) := by rw [hNq]; linarith
  have hmul : (tableN cs : ℚ) * (cs.map (fun p : ℕ × ℕ =>
      (p.1 : ℚ) ^ 2 / (((p.1 : ℚ) + (p.2 : ℚ)) * (rowWins cs : ℚ)) +
        (p.2 : ℚ) ^ 2 / (((p.1 : ℚ) + (p.2 : ℚ)) * (rowLosses cs : ℚ)))).sum
      ≤ (tableN cs : ℚ) * 2 := by
    apply mul_le_mul_of_nonneg_left _ (le_of_lt hNpos)
    rw [← hB]
    exact hA_le
  linarith

/-- Two numbers at least 1 have a product at least their sum minus 1. -/
theorem marginal_prod_lower (x y : ℚ) (hx : 1 ≤ x) (hy : 1 ≤ y) :
    x + y - 1 ≤ x * y := by
  nlinarith [mul_nonneg (by linarith : (0 : ℚ) ≤ x - 1)
    (by linarith : (0 : ℚ) ≤ y - 1)]

/-- For totals of at least 2, a quarter of the square is below the
squared predecessor. -/
theorem quarter_sq_le (m : ℚ) (hm : 2 ≤ m) : m ^ 2 / 4 ≤ (m - 1) * (m - 1) := by
  nlinarith [mul_nonneg (by linarith : (0 : ℚ) ≤ 3 * m - 2)
    (by linarith : (0 : ℚ) ≤ m - 2)]

/-- Yates-corrected chi-square bound for a 2×2 table, in pure rational
form: with all four marginals at least 1 and a grand total of at least 2,
the corrected statistic is at most the grand total. -/
theorem yates_2x2_bound (A B C E : ℚ) (hA : 0 ≤ A) (hB : 0 ≤ B) (hC : 0 ≤ C) (hE : 0 ≤ E)
    (hr1 : 1 ≤ A + B) (hr2 : 1 ≤ C + E) (hc1 : 1 ≤ A + C) (hc2 : 1 ≤ B + E)
    (hn : 2 ≤ A + B + C + E) :
    cellTerm true A ((A + B) * (A + C) / (A + B + C + E)) +
      cellTerm true B ((A + B) * (B + E) / (A + B + C + E)) +
      (cellTerm true C ((C + E) * (A + C) / (A + B + C + E)) +
       cellTerm true E ((C + E) * (B + E) / (A + B + C + E)))
      ≤ A + B + C + E := by
  have hn0 : (0 : ℚ) < A + B + C + E := by linarith
  have hr10 : (0 : ℚ) < A + B := by linarith
  have hr20 : (0 : ℚ) < C + E := by linarith
  have hc10 : (0 : ℚ) < A + C := by linarith
  have hc20 : (0 : ℚ) < B + E := by linarith
  set n : ℚ := A + B + C + E with hnd
  have hnne : n ≠ 0 := ne_of_gt hn0
  set DD : ℚ := A * E - B * C with hDDd
  have sa : A - (A + B) * (A + C) / n = DD / n := by
    rw [hnd, hDDd]; field_simp; ring
  have sb : B - (A + B) * (B + E) / n = -(DD / n) := by
    rw [hnd, hDDd]; field_simp; ring
  have sc : C - (C + E) * (A + C) / n = -(DD / n) := by
    rw [hnd, hDDd]; field_simp; ring
  have sd : E - (C + E) * (B + E) / n = DD / n := by
    rw [hnd, hDDd]; field_simp; ring
  rw [cellTerm_true_eq, cellTerm_true_eq, cellTerm_true_eq, cellTerm_true_eq,
    sa, sb, sc, sd, psi_neg]
  set P : ℚ := (A + B) * (C + E) * (A + C) * (B + E) with hPd
  have hP : (0 : ℚ) < P := by rw [hPd]; positivity
  set psiv : ℚ := ((DD / n) - qsign (DD / n) * (1 / 2)) ^ 2 with hpsid
  have hpsi_nonneg : 0 ≤ psiv := by rw [hpsid]; exact sq_nonneg _
  have hsplit : psiv / ((A + B) * (A + C) / n) + psiv / ((A + B) * (B + E) / n) +
      (psiv / ((C + E) * (A + C) / n) + psiv / ((C + E) * (B + E) / n))
      = psiv * (n ^ 3 / P) := by
    rw [hPd, hnd]
    field_simp
    ring
  rw [hsplit, ← mul_div_assoc, div_le_iff₀ hP]
  have key : psiv * n ^ 2 ≤ P := by
    by_cases hcase : 1 / 4 ≤ |DD / n|
    · have hpsi : psiv ≤ (DD / n) ^ 2 := by rw [hpsid]; exact psi_le_sq hcase
      have hDsq : (DD / n) ^ 2 * n ^ 2 = DD ^ 2 := by field_simp
      have hid : P = DD ^ 2 + n * (A * B * C + A * B * E + A * C * E + B * C * E) := by
        rw [hPd, hDDd, hnd]; ring
      have hprod : 0 ≤ n * (A * B * C + A * B * E + A * C * E + B * C * E) := by
        rw [hnd]; positivity
      have h5 : psiv * n ^ 2 ≤ (DD / n) ^ 2 * n ^ 2 :=
        mul_le_mul_of_nonneg_right hpsi (by positivity)
      rw [hDsq] at h5
      linarith
    · push_neg at hcase
      have hpsi : psiv ≤ 1 / 4 := by rw [hpsid]; exact psi_le_quarter (le_of_lt hcase)
      have h5 : psiv * n ^ 2 ≤ 1 / 4 * n ^ 2 :=
        mul_le_mul_of_nonneg_right hpsi (by positivity)
      have hr12 : n - 1 ≤ (A + B) * (C + E) := by
        have hm := marginal_prod_lower (A + B) (C + E) hr1 hr2
        linarith [hnd.le, hnd.ge]
      have hc12 : n - 1 ≤ (A + C) * (B + E) := by
        have hm := marginal_prod_lower (A + C) (B + E) hc1 hc2
        linarith [hnd.le, hnd.ge]
      have hq : n ^ 2 / 4 ≤ (n - 1) * (n - 1) := quarter_sq_le n hn
      have hmul : (n - 1) * (n - 1) ≤ ((A + B) * (C + E)) * ((A + C) * (B + E)) :=
        mul_le_mul hr12 hc12 (by linarith) (by positivity)
      calc psiv * n ^ 2 ≤ 1 / 4 * n ^ 2 := h5
        _ = n ^ 2 / 4 := by ring
        _ ≤ (n - 1) * (n - 1) := hq
        _ ≤ ((A + B) * (C + E)) * ((A + C) * (B + E)) := hmul
        _ = P := by rw [hPd]; ring
  have hfin : psiv * n ^ 3 = psiv * n ^ 2 * n := by ring
  rw [hfin]
  calc psiv * n ^ 2 * n ≤ P * n := mul_le_mul_of_nonneg_right key (le_of_lt hn0)
    _ = n * P := by ring

/-- The Yates-corrected statistic of a concrete 2×2 integer table with
nonempty rows and columns and total at least 2 is at most the total. -/
theorem pearsonSum_true_2x2_le (a b c d : ℕ) (h1 : 0 < a + b) (h2 : 0 < c + d)
    (hW : 0 < a + c) (hL : 0 < b + d) (hn : 2 ≤ a + b + c + d) :
    pearsonSum true [(a, b), (c, d)] ≤ (tableN [(a, b), (c, d)] : ℚ) := by
  have hrw : (rowWins [(a, b), (c, d)] : ℚ) = (a : ℚ) + (c : ℚ) := by
    simp [rowWins]
  have hrl : (rowLosses [(a, b), (c, d)] : ℚ) = (b : ℚ) + (d : ℚ) := by
    simp [rowLosses]
  have htn : (tableN [(a, b), (c, d)] : ℚ) = (a : ℚ) + (b : ℚ) + (c : ℚ) + (d : ℚ) := by
    simp [tableN, rowWins, rowLosses]; ring
  unfold pearsonSum
  simp only [List.map_cons, List.map_nil, List.sum_cons, List.sum_nil, add_zero]
  rw [hrw, hrl, htn]
  have hr1q : (1 : ℚ) ≤ (a : ℚ) + (b : ℚ) := by exact_mod_cast h1
  have hr2q : (1 : ℚ) ≤ (c : ℚ) + (d : ℚ) := by exact_mod_cast h2
  have hc1q : (1 : ℚ) ≤ (a : ℚ) + (c : ℚ) := by exact_mod_cast hW
  have hc2q : (1 : ℚ) ≤ (b : ℚ) + (d : ℚ) := by exact_mod_cast hL
  have hnq : (2 : ℚ) ≤ (a : ℚ) + (b : ℚ) + (c : ℚ) + (d : ℚ) := by exact_mod_cast hn
  exact yates_2x2_bound _ _ _ _ (by positivity) (by positivity) (by positivity)
    (by positivity) hr1q hr2q hc1q hc2q hnq

/-- The source's chi-square statistic of a table with both columns
present, no empty row, and total at least 2 is at most the grand total. -/
theorem chiSqStat_le_tableN (cs : List (ℕ × ℕ)) (ht : ∀ p ∈ cs, 0 < p.1 + p.2)
    (hW : 0 < rowWins cs) (hL : 0 < rowLosses cs) (hn : 2 ≤ tableN cs) :
    chiSqStat cs ≤ (tableN cs : ℚ) := by
  unfold chiSqStat
  split_ifs with h0 h1
  · positivity
  · have hcols : nColsOf cs = 2 := by unfold nColsOf; rw [if_pos hW, if_pos hL]
    have hlen : cs.length = 2 := by
      unfold tableDof at h1
      rw [hcols] at h1
      omega
    obtain ⟨p, q, rfl⟩ := List.length_eq_two.1 hlen
    have hp := ht p (by simp)
    have hq := ht q (by simp)
    have hWq : 0 < p.1 + q.1 := by
      have : rowWins [p, q] = p.1 + q.1 := by simp [rowWins]
      omega
    have hLq : 0 < p.2 + q.2 := by
      have : rowLosses [p, q] = p.2 + q.2 := by simp [rowLosses]
      omega
    have hnq : 2 ≤ p.1 + p.2 + q.1 + q.2 := by
      have : tableN [p, q] = p.1 + q.1 + (p.2 + q.2) := by
        simp [tableN, rowWins, rowLosses]
      omega
    exact pearsonSum_true_2x2_le p.1 p.2 q.1 q.2 hp hq hWq hLq hnq
  · exact pearsonSum_false_le cs ht hW hL

/-- Shape of a successful `analyze_factor_impact` run: above the gate the
result exists and its statistical fields are the table functions. -/
theorem analyze_of_ge (sf : ℚ → ℕ → ℚ) (df : List Deal) (f : Factor)
    (h : ¬ tableTotal df f.col < MIN_DEALS_FOR_INSIGHT) :
    ∃ r, analyze_factor_impact sf df f = some r ∧
      r.chi_square = chiSqStat (cells df f.col) ∧
      r.degrees_of_freedom = tableDof (cells df f.col) ∧
      r.p_value = (if tableDof (cells df f.col) = 0 then (1 : ℚ)
        else sf (chiSqStat (cells df f.col)) (tableDof (cells df f.col))) ∧
      r.cramers_v_sq = (if 0 < minDim (cells df f.col)
        then chiSqStat (cells df f.col) /
          ((tableN (cells df f.col) : ℚ) * (minDim (cells df f.col) : ℚ))
        else 0) ∧
      r.category_stats = categoryStats df f.col := by
  simp only [analyze_factor_impact]
  rw [if_neg h]
  exact ⟨_, rfl, rfl, rfl, rfl, rfl, rfl⟩

/-- C4: `analyzeFactor` returns no result exactly when the raw total of
the factor's contingency table is below 100, and a result otherwise; the
gated quantity is the raw table sum, which equals the dataset's row
count. -/
theorem C4_gate (sf : ℚ → ℕ → ℚ) (df : List Deal) (f : Factor) :
    (analyze_factor_impact sf df f = none ↔ tableTotal df f.col < 100) ∧
      tableTotal df f.col = df.length := by
  refine ⟨⟨fun hnone => ?_, fun hlt => ?_⟩, tableTotal_eq_length df f.col⟩
  · by_contra hge
    obtain ⟨r, hr, -⟩ := analyze_of_ge sf df f (by
      unfold MIN_DEALS_FOR_INSIGHT; exact hge)
    rw [hr] at hnone
    exact Option.noConfusion hnone
  · simp only [analyze_factor_impact]
    rw [if_pos (by unfold MIN_DEALS_FOR_INSIGHT; exact hlt)]

/-- C3: on a gated factor the source's Cramér's V is
`sqrt(chi2 / (n * min_dim))` when `min_dim > 0` and `0` otherwise; in
particular a single-category factor gets `V = 0`. -/
theorem C3_cramers_v (sf : ℚ → ℕ → ℚ) (df : List Deal) (f : Factor)
    (h : 100 ≤ tableTotal df f.col) :
    ∃ r, analyze_factor_impact sf df f = some r ∧
      (0 < minDim (cells df f.col) →
        Real.sqrt (r.cramers_v_sq : ℝ) =
          Real.sqrt ((r.chi_square : ℝ) /
            ((tableN (cells df f.col) : ℝ) * (minDim (cells df f.col) : ℝ)))) ∧
      (minDim (cells df f.col) = 0 → Real.sqrt (r.cramers_v_sq : ℝ) = 0) ∧
      ((categories df f.col).length = 1 → Real.sqrt (r.cramers_v_sq : ℝ) = 0) := by
  obtain ⟨r, hr, hchi, hdof, hp, hv, hcs⟩ :=
    analyze_of_ge sf df f (by unfold MIN_DEALS_FOR_INSIGHT; omega)
  have hzero : minDim (cells df f.col) = 0 → Real.sqrt (r.cramers_v_sq : ℝ) = 0 := by
    intro h0
    rw [hv, if_neg (by omega)]
    simp
  refine ⟨r, hr, ?_, hzero, ?_⟩
  · intro hpos
    rw [hv, if_pos hpos, hchi]
    congr 1
    push_cast
    ring
  · intro h1
    apply hzero
    have hlen : (cells df f.col).length = 1 := by
      unfold cells
      rw [List.length_map]
      exact h1
    have hmin : min (cells df f.col).length (nColsOf (cells df f.col)) ≤ 1 := by
      rw [hlen]
      exact min_le_left _ _
    unfold minDim
    omega

/-- Witness for C3 on the concrete two-region dataset. -/
theorem C3_cramers_v_witness :
    ∃ r, analyze_factor_impact sfZero twoCatDf Factor.region = some r ∧
      (0 < minDim (cells twoCatDf Factor.region.col) →
        Real.sqrt (r.cramers_v_sq : ℝ) =
          Real.sqrt ((r.chi_square : ℝ) /
            ((tableN (cells twoCatDf Factor.region.col) : ℝ) *
              (minDim (cells twoCatDf Factor.region.col) : ℝ)))) ∧
      (minDim (cells twoCatDf Factor.region.col) = 0 →
        Real.sqrt (r.cramers_v_sq : ℝ) = 0) ∧
      ((categories twoCatDf Factor.region.col).length = 1 →
        Real.sqrt (r.cramers_v_sq : ℝ) = 0) :=
  C3_cramers_v sfZero twoCatDf Factor.region (by decide)

/-- C5: on a gated factor the chi-square statistic is nonnegative and
Cramér's V lies in `[0, 1]`. -/
theorem C5_bounds (sf : ℚ → ℕ → ℚ) (df : List Deal) (f : Factor)
    (h : 100 ≤ tableTotal df f.col) :
    ∃ r, analyze_factor_impact sf df f = some r ∧ 0 ≤ r.chi_square ∧
      0 ≤ Real.sqrt (r.cramers_v_sq : ℝ) ∧ Real.sqrt (r.cramers_v_sq : ℝ) ≤ 1 := by
  obtain ⟨r, hr, hchi, hdof, hp, hv, hcs⟩ :=
    analyze_of_ge sf df f (by unfold MIN_DEALS_FOR_INSIGHT; omega)
  refine ⟨r, hr, by rw [hchi]; exact chiSqStat_nonneg _, Real.sqrt_nonneg _, ?_⟩
  rw [Real.sqrt_le_one]
  by_cases hmd : 0 < minDim (cells df f.col)
  · rw [hv, if_pos hmd]
    have hnle : nColsOf (cells df f.col) ≤ 2 := by
      unfold nColsOf; split_ifs <;> omega
    have hmin2 : 2 ≤ min (cells df f.col).length (nColsOf (cells df f.col)) := by
      unfold minDim at hmd; omega
    have hcols : nColsOf (cells df f.col) = 2 := by
      have := min_le_right (cells df f.col).length (nColsOf (cells df f.col))
      omega
    have hlen2 : 2 ≤ (cells df f.col).length := by
      have := min_le_left (cells df f.col).length (nColsOf (cells df f.col))
      omega
    have hWL : 0 < rowWins (cells df f.col) ∧ 0 < rowLosses (cells df f.col) := by
      unfold nColsOf at hcols
      constructor <;> by_contra hq <;> rw [if_neg hq] at hcols <;>
        split_ifs at hcols <;> omega
    have hn2 : 2 ≤ tableN (cells df f.col) := by
      rw [tableN_cells]; omega
    have hle := chiSqStat_le_tableN (cells df f.col)
      (fun p hp => cells_mem_pos hp) hWL.1 hWL.2 hn2
    have hmd1 : minDim (cells df f.col) = 1 := by
      unfold minDim
      have hle2 := min_le_right (cells df f.col).length (nColsOf (cells df f.col))
      omega
    have hnpos : (0 : ℚ) < (tableN (cells df f.col) : ℚ) := by
      exact_mod_cast (by omega : 0 < tableN (cells df f.col))
    have hq : chiSqStat (cells df f.col) /
        ((tableN (cells df f.col) : ℚ) * (minDim (cells df f.col) : ℚ)) ≤ 1 := by
      rw [hmd1]
      push_cast
      rw [mul_one, div_le_one hnpos]
      exact hle
    exact_mod_cast hq
  · rw [hv, if_neg hmd]
    norm_num

/-- Witness for C5 on the concrete two-region dataset. -/
theorem C5_bounds_witness :
    ∃ r, analyze_factor_impact sfZero twoCatDf Factor.region = some r ∧
      0 ≤ r.chi_square ∧ 0 ≤ Real.sqrt (r.cramers_v_sq : ℝ) ∧
      Real.sqrt (r.cramers_v_sq : ℝ) ≤ 1 :=
  C5_bounds sfZero twoCatDf Factor.region (by decide)

/-- C2 (amended): on a gated factor the degrees of freedom are
`(rows − 1)(cols − 1)` and the p-value is the survival function at the
statistic and dof (`1` when `dof = 0`); the statistic follows the spec's
standard formula except on a 2×2 table, where scipy's default Yates
continuity correction replaces it. -/
theorem C2_chi2_amended (sf : ℚ → ℕ → ℚ) (df : List Deal) (f : Factor)
    (h : 100 ≤ tableTotal df f.col) :
    ∃ r, analyze_factor_impact sf df f = some r ∧
      r.degrees_of_freedom =
        ((categories df f.col).length - 1) * (nColsOf (cells df f.col) - 1) ∧
      (r.degrees_of_freedom ≠ 1 →
        r.chi_square = spec_chi2_standard (cells df f.col)) ∧
      (r.degrees_of_freedom = 1 →
        r.chi_square = spec_chi2_yates (cells df f.col)) ∧
      (1 ≤ r.degrees_of_freedom →
        r.p_value = sf r.chi_square r.degrees_of_freedom) ∧
      (r.degrees_of_freedom = 0 → r.p_value = 1) := by
  obtain ⟨r, hr, hchi, hdof, hp, hv, hcs⟩ :=
    analyze_of_ge sf df f (by unfold MIN_DEALS_FOR_INSIGHT; omega)
  have hlen : (cells df f.col).length = (categories df f.col).length :=
    List.length_map _ _
  refine ⟨r, hr, ?_, ?_, ?_, ?_, ?_⟩
  · rw [hdof]; unfold tableDof; rw [hlen]
  · intro hne
    rw [hchi]
    exact chiSqStat_eq_spec_standard _ (fun p hp => cells_mem_pos hp)
      (by rw [hdof] at hne; exact hne)
  · intro h1
    have h1' : tableDof (cells df f.col) = 1 := by rw [← hdof]; exact h1
    rw [hchi]
    unfold chiSqStat
    rw [if_neg (by omega), if_pos h1']
    exact pearsonSum_true_eq_spec_yates _
  · intro hge
    have hne : tableDof (cells df f.col) ≠ 0 := by rw [← hdof]; omega
    rw [hp, hchi, hdof, if_neg hne]
  · intro h0
    rw [hp, if_pos (by rw [← hdof]; exact h0)]

/-- Witness for the amended C2 on the concrete two-region dataset. -/
theorem C2_chi2_amended_witness :
    ∃ r, analyze_factor_impact sfZero twoCatDf Factor.region = some r ∧
      r.degrees_of_freedom =
        ((categories twoCatDf Factor.region.col).length - 1) *
          (nColsOf (cells twoCatDf Factor.region.col) - 1) ∧
      (r.degrees_of_freedom ≠ 1 →
        r.chi_square = spec_chi2_standard (cells twoCatDf Factor.region.col)) ∧
      (r.degrees_of_freedom = 1 →
        r.chi_square = spec_chi2_yates (cells twoCatDf Factor.region.col)) ∧
      (1 ≤ r.degrees_of_freedom →
        r.p_value = sfZero r.chi_square r.degrees_of_freedom) ∧
      (r.degrees_of_freedom = 0 → r.p_value = 1) :=
  C2_chi2_amended sfZero twoCatDf Factor.region (by decide)

/-- Counterexample to C2 as stated: on the two-region dataset (a 2×2
table, 30/20 vs 20/30 over 100 deals) the statistic the source returns is
the Yates-corrected 3.24, not the standard formula's 4. -/
theorem C2_chi2_counterexample :
    (analyze_factor_impact sfZero twoCatDf Factor.region).map FactorResult.chi_square
      ≠ some (spec_chi2_standard (cells twoCatDf Factor.region.col)) := by
  obtain ⟨r, hr, hchi, -, -, -, -⟩ :=
    analyze_of_ge sfZero twoCatDf Factor.region (by decide)
  rw [hr]
  intro heq
  have hval : r.chi_square = spec_chi2_standard (cells twoCatDf Factor.region.col) :=
    Option.some.inj (by simpa using heq)
  rw [hchi] at hval
  have hcells : cells twoCatDf Factor.region.col = [(30, 20), (20, 30)] := by decide
  rw [hcells] at hval
  have h1 : chiSqStat [(30, 20), (20, 30)] = 81 / 25 := by
    norm_num [chiSqStat, tableDof, nColsOf, rowWins, rowLosses, tableN,
      pearsonSum, cellTerm, qsign]
  have h2 : spec_chi2_standard [(30, 20), (20, 30)] = 4 := by
    norm_num [spec_chi2_standard, rowWins, rowLosses, tableN]
  rw [h1, h2] at hval
  norm_num at hval

/-- C1 (code evaluation at the failing input): on a 10-deal dataset the
`sales_rep_id` analysis is gated off (`None`), and
`get_rep_performance_tiers` therefore hits the unguarded
`result['category_stats']` subscript — the modelled `none` here stands
for the `TypeError` the source raises instead of silently omitting the
rep tiers. -/
theorem C1_small_dataset_eval :
    analyze_factor_impact sfZero smallDf Factor.sales_rep_id = none ∧
      get_rep_performance_tiers sfZero smallDf = none := by
  have h : analyze_factor_impact sfZero smallDf Factor.sales_rep_id = none := by
    simp only [analyze_factor_impact]
    rw [if_pos (by decide)]
  refine ⟨h, ?_⟩
  unfold get_rep_performance_tiers
  rw [h]

/-- C6: the momentum index is `NaN` (here `none`) exactly when the rep's
recent window holds fewer than 3 deals, the historical window fewer than
5, or the historical win rate is 0; any returned value is the ratio of
the recent to the historical win rate, both windows anchored at the
rep's own latest closed date. -/
theorem C6_momentum (df : List Deal) (rep_id : String)
    (recent_days historical_days : ℤ) :
    (calculate_rep_momentum_index df rep_id recent_days historical_days = none ↔
      (recent_deals df rep_id recent_days).length < 3 ∨
      (historical_deals df rep_id historical_days).length < 5 ∨
      wonMean (historical_deals df rep_id historical_days) = 0) ∧
    ∀ q, calculate_rep_momentum_index df rep_id recent_days historical_days = some q →
      q = wonMean (recent_deals df rep_id recent_days) /
        wonMean (historical_deals df rep_id historical_days) := by
  by_cases h0 : (repDeals df rep_id).length = 0
  · have he : repDeals df rep_id = [] := List.length_eq_zero.1 h0
    have hrec : recent_deals df rep_id recent_days = [] := by
      unfold recent_deals
      rw [he]
      rfl
    have hcalc : calculate_rep_momentum_index df rep_id recent_days historical_days
        = none := by
      simp only [calculate_rep_momentum_index]
      rw [if_pos h0]
    constructor
    · rw [hcalc, hrec]
      simp
    · intro q hq
      rw [hcalc] at hq
      exact absurd hq (by simp)
  · simp only [calculate_rep_momentum_index]
    rw [if_neg h0]
    by_cases h1 : (recent_deals df rep_id recent_days).length < 3 ∨
        (historical_deals df rep_id historical_days).length < 5
    · rw [if_pos h1]
      refine ⟨⟨fun _ => ?_, fun _ => rfl⟩, fun q hq => absurd hq (by simp)⟩
      rcases h1 with h | h
      · exact Or.inl h
      · exact Or.inr (Or.inl h)
    · rw [if_neg h1]
      push_neg at h1
      by_cases h2 : wonMean (historical_deals df rep_id historical_days) = 0
      · rw [if_pos h2]
        exact ⟨⟨fun _ => Or.inr (Or.inr h2), fun _ => rfl⟩,
          fun q hq => absurd hq (by simp)⟩
      · rw [if_neg h2]
        refine ⟨⟨fun hc => absurd hc (by simp), fun hor => ?_⟩,
          fun q hq => (Option.some.inj hq).symm⟩
        rcases hor with hx | hx | hx
        · omega
        · omega
        · exact absurd hx h2

/-- C10: with a recent window no longer than the historical one (as with
the 30/90 defaults), the recent window's deals form a sublist of the
historical window's, so the historical count and win rate cover the
recent deals as well. -/
theorem C10_window_nesting (df : List Deal) (rep_id : String)
    (recent_days historical_days : ℤ) (h : recent_days ≤ historical_days) :
    (recent_deals df rep_id recent_days).Sublist
        (historical_deals df rep_id historical_days) ∧
      (recent_deals df rep_id recent_days).length ≤
        (historical_deals df rep_id historical_days).length := by
  have hsub : (recent_deals df rep_id recent_days).Sublist
      (historical_deals df rep_id historical_days) := by
    unfold recent_deals historical_deals
    apply List.monotone_filter_right
    intro d hd
    simp only [decide_eq_true_eq] at hd ⊢
    omega
  exact ⟨hsub, hsub.length_le⟩

/-- Witness for C10 on the concrete momentum dataset with the source's
default 30/90 windows. -/
theorem C10_window_nesting_witness :
    (recent_deals momentumDf "m" 30).Sublist (historical_deals momentumDf "m" 90) ∧
      (recent_deals momentumDf "m" 30).length ≤
        (historical_deals momentumDf "m" 90).length :=
  C10_window_nesting momentumDf "m" 30 90 (by decide)

/-- Witness for C6: on the concrete momentum dataset the index is
computed and equals the window win-rate ratio (10/9). -/
theorem C6_momentum_witness :
    ∃ q, calculate_rep_momentum_index momentumDf "m" 30 90 = some q ∧
      q = wonMean (recent_deals momentumDf "m" 30) /
        wonMean (historical_deals momentumDf "m" 90) := by
  have hc : calculate_rep_momentum_index momentumDf "m" 30 90 = some (10 / 9) := by
    norm_num [calculate_rep_momentum_index, recent_deals, historical_deals, repDeals,
      maxClosedDate, wonMean, momentumDf, mkDeal, List.filter, max_def, List.foldl]
  exact ⟨10 / 9, hc, (C6_momentum momentumDf "m" 30 90).2 (10 / 9) hc⟩

/-- Witness for C4: the 10-deal dataset is below the gate, so the region
analysis returns no result. -/
theorem C4_gate_witness :
    analyze_factor_impact sfZero smallDf Factor.region = none :=
  (C4_gate sfZero smallDf Factor.region).1.2 (by decide)

/-- The category value determines the whole `factor_stats` row. -/
theorem categoryStats_inj (df : List Deal) (g : Deal → String) {c1 c2 : CatStat}
    (h1 : c1 ∈ categoryStats df g) (h2 : c2 ∈ categoryStats df g)
    (hc : c1.category = c2.category) : c1 = c2 := by
  unfold categoryStats at h1 h2
  rcases List.mem_map.1 h1 with ⟨v1, hv1, rfl⟩
  rcases List.mem_map.1 h2 with ⟨v2, hv2, rfl⟩
  have hv : v1 = v2 := hc
  subst hv
  rfl

/-- A rep with fewer than 50 deals falls into no tier. -/
theorem tierOf_small (ow : ℚ) (cst : CatStat) (h : cst.deal_count < 50) :
    tierOf ow cst = 0 := by
  unfold tierOf MIN_DEALS_FOR_REP
  rw [if_pos (by omega)]

/-- The `if/elif` tier chain, characterised for reps above the 50-deal
floor. -/
theorem tierOf_eq (ow : ℚ) (cst : CatStat) (h50 : 50 ≤ cst.deal_count) :
    (tierOf ow cst = 1 ↔ ow + 10 ≤ cst.win_rate) ∧
    (tierOf ow cst = 2 ↔ ow ≤ cst.win_rate ∧ cst.win_rate < ow + 10) ∧
    (tierOf ow cst = 3 ↔ ow - 10 ≤ cst.win_rate ∧ cst.win_rate < ow) ∧
    (tierOf ow cst = 4 ↔ cst.win_rate < ow - 10) ∧ tierOf ow cst ≠ 0 := by
  unfold tierOf MIN_DEALS_FOR_REP
  rw [if_neg (by omega)]
  by_cases hA : ow + 10 ≤ cst.win_rate
  · rw [if_pos hA]
    refine ⟨by simp [hA], ?_, ?_, ?_, by decide⟩
    · exact ⟨fun h => absurd h (by decide), fun hx => ((by linarith [hx.2] : False)).elim⟩
    · exact ⟨fun h => absurd h (by decide), fun hx => ((by linarith [hx.2] : False)).elim⟩
    · exact ⟨fun h => absurd h (by decide), fun hx => ((by linarith [hx] : False)).elim⟩
  · rw [if_neg hA]
    push_neg at hA
    by_cases hB : ow ≤ cst.win_rate
    · rw [if_pos hB]
      refine ⟨?_, by simp [hB, hA], ?_, ?_, by decide⟩
      · exact ⟨fun h => absurd h (by decide), fun hx => ((by linarith : False)).elim⟩
      · exact ⟨fun h => absurd h (by decide), fun hx => ((by linarith [hx.2] : False)).elim⟩
      · exact ⟨fun h => absurd h (by decide), fun hx => ((by linarith [hx] : False)).elim⟩
    · rw [if_neg hB]
      push_neg at hB
      by_cases hC : ow - 10 ≤ cst.win_rate
      · rw [if_pos hC]
        refine ⟨?_, ?_, by simp [hC, hB], ?_, by decide⟩
        · exact ⟨fun h => absurd h (by decide), fun hx => ((by linarith : False)).elim⟩
        · exact ⟨fun h => absurd h (by decide), fun hx => ((by linarith [hx.1] : False)).elim⟩
        · exact ⟨fun h => absurd h (by decide), fun hx => ((by linarith [hx] : False)).elim⟩
      · rw [if_neg hC]
        push_neg at hC
        refine ⟨?_, ?_, ?_, by simp [hC], by decide⟩
        · exact ⟨fun h => absurd h (by decide), fun hx => ((by linarith : False)).elim⟩
        · exact ⟨fun h => absurd h (by decide), fun hx => ((by linarith [hx.1] : False)).elim⟩
        · exact ⟨fun h => absurd h (by decide), fun hx => ((by linarith [hx.1] : False)).elim⟩

/-- Membership of a rep's tuple in a tier list is exactly its `tierOf`
classification. -/
theorem tierEntry_mem_iff (df : List Deal) (g : Deal → String) (ow : ℚ) (k : ℕ)
    {cst : CatStat} (hcst : cst ∈ categoryStats df g) :
    tierEntry cst ∈ ((categoryStats df g).filter (fun s => tierOf ow s = k)).map tierEntry
      ↔ tierOf ow cst = k := by
  constructor
  · intro hmem
    rcases List.mem_map.1 hmem with ⟨cst2, hc2, he⟩
    have hc2' := List.mem_filter.1 hc2
    have hcat : cst2.category = cst.category := congrArg (fun x => x.1) he
    have heq : cst2 = cst := categoryStats_inj df g hc2'.1 hcst hcat
    rw [← heq]
    exact of_decide_eq_true hc2'.2
  · intro hk
    exact List.mem_map_of_mem _ (List.mem_filter.2 ⟨hcst, by simp [hk]⟩)

/-- C8: when the rep analysis passes the gate, tiers are produced; every
rep row with fewer than 50 deals is in no tier, and every rep row with at
least 50 deals is in exactly the tier its win rate selects relative to
the overall win rate (top: ≥ overall+10pp, solid: ≥ overall,
needs-improvement: ≥ overall−10pp, at-risk: below). -/
theorem C8_rep_tiers (sf : ℚ → ℕ → ℚ) (df : List Deal)
    (h : 100 ≤ tableTotal df Factor.sales_rep_id.col) :
    ∃ t r, get_rep_performance_tiers sf df = some t ∧
      analyze_factor_impact sf df Factor.sales_rep_id = some r ∧
      ∀ cst ∈ r.category_stats,
        (cst.deal_count < 50 →
          tierEntry cst ∉ t.top_performers ∧ tierEntry cst ∉ t.solid_performers ∧
          tierEntry cst ∉ t.needs_improvement ∧ tierEntry cst ∉ t.at_risk) ∧
        (50 ≤ cst.deal_count →
          (tierEntry cst ∈ t.top_performers ↔
            overall_win_rate df + 10 ≤ cst.win_rate) ∧
          (tierEntry cst ∈ t.solid_performers ↔
            overall_win_rate df ≤ cst.win_rate ∧
              cst.win_rate < overall_win_rate df + 10) ∧
          (tierEntry cst ∈ t.needs_improvement ↔
            overall_win_rate df - 10 ≤ cst.win_rate ∧
              cst.win_rate < overall_win_rate df) ∧
          (tierEntry cst ∈ t.at_risk ↔ cst.win_rate < overall_win_rate df - 10)) := by
  obtain ⟨r, hr, -, -, -, -, hcs⟩ :=
    analyze_of_ge sf df Factor.sales_rep_id (by unfold MIN_DEALS_FOR_INSIGHT; omega)
  refine ⟨RepTiers.mk
    (((categoryStats df Factor.sales_rep_id.col).filter
      (fun s => tierOf (overall_win_rate df) s = 1)).map tierEntry)
    (((categoryStats df Factor.sales_rep_id.col).filter
      (fun s => tierOf (overall_win_rate df) s = 2)).map tierEntry)
    (((categoryStats df Factor.sales_rep_id.col).filter
      (fun s => tierOf (overall_win_rate df) s = 3)).map tierEntry)
    (((categoryStats df Factor.sales_rep_id.col).filter
      (fun s => tierOf (overall_win_rate df) s = 4)).map tierEntry),
    r, ?_, hr, ?_⟩
  · unfold get_rep_performance_tiers
    rw [hr]
    simp only [hcs]
  · intro cst hcst
    rw [hcs] at hcst
    constructor
    · intro h50
      have h0 := tierOf_small (overall_win_rate df) cst h50
      refine ⟨fun hm => ?_, fun hm => ?_, fun hm => ?_, fun hm => ?_⟩ <;>
        [have hk := (tierEntry_mem_iff df _ _ 1 hcst).1 hm;
         have hk := (tierEntry_mem_iff df _ _ 2 hcst).1 hm;
         have hk := (tierEntry_mem_iff df _ _ 3 hcst).1 hm;
         have hk := (tierEntry_mem_iff df _ _ 4 hcst).1 hm] <;> omega
    · intro h50
      obtain ⟨i1, i2, i3, i4, -⟩ := tierOf_eq (overall_win_rate df) cst h50
      exact ⟨(tierEntry_mem_iff df _ _ 1 hcst).trans i1,
        (tierEntry_mem_iff df _ _ 2 hcst).trans i2,
        (tierEntry_mem_iff df _ _ 3 hcst).trans i3,
        (tierEntry_mem_iff df _ _ 4 hcst).trans i4⟩

/-- Witness for C8 on the concrete two-rep dataset (120 deals, both reps
above the 50-deal floor). -/
theorem C8_rep_tiers_witness :
    ∃ t r, get_rep_performance_tiers sfZero twoRepDf = some t ∧
      analyze_factor_impact sfZero twoRepDf Factor.sales_rep_id = some r ∧
      ∀ cst ∈ r.category_stats,
        (cst.deal_count < 50 →
          tierEntry cst ∉ t.top_performers ∧ tierEntry cst ∉ t.solid_performers ∧
          tierEntry cst ∉ t.needs_improvement ∧ tierEntry cst ∉ t.at_risk) ∧
        (50 ≤ cst.deal_count →
          (tierEntry cst ∈ t.top_performers ↔
            overall_win_rate twoRepDf + 10 ≤ cst.win_rate) ∧
          (tierEntry cst ∈ t.solid_performers ↔
            overall_win_rate twoRepDf ≤ cst.win_rate ∧
              cst.win_rate < overall_win_rate twoRepDf + 10) ∧
          (tierEntry cst ∈ t.needs_improvement ↔
            overall_win_rate twoRepDf - 10 ≤ cst.win_rate ∧
              cst.win_rate < overall_win_rate twoRepDf) ∧
          (tierEntry cst ∈ t.at_risk ↔
            cst.win_rate < overall_win_rate twoRepDf - 10)) :=
  C8_rep_tiers sfZero twoRepDf (by decide)

/-- C7: improvement opportunities are exactly the non-rep factor
categories with deviation below −5pp and more than 100 deals; each
carries `floor(|deviation|/100 * count)` recoverable wins and a High
priority exactly when the deviation is below −10pp; the list is sorted
by recoverable wins descending. -/
theorem C7_opportunities (sf : ℚ → ℕ → ℚ) (df : List Deal) :
    (∀ o ∈ get_improvement_opportunities sf df,
      ∃ fr ∈ analyze_all_factors sf df, ∃ cst ∈ fr.2.category_stats,
        fr.1 ≠ Factor.sales_rep_id ∧ o.factor = fr.1 ∧ o.category = cst.category ∧
        cst.win_rate_diff < -5 ∧ 100 < cst.deal_count ∧
        o.potential_additional_wins =
          ⌊|cst.win_rate_diff| / 100 * (cst.deal_count : ℚ)⌋ ∧
        (o.priority = "High" ↔ cst.win_rate_diff < -10)) ∧
    (∀ fr ∈ analyze_all_factors sf df, fr.1 ≠ Factor.sales_rep_id →
      ∀ cst ∈ fr.2.category_stats, cst.win_rate_diff < -5 → 100 < cst.deal_count →
        ∃ o ∈ get_improvement_opportunities sf df,
          o.factor = fr.1 ∧ o.category = cst.category) ∧
    List.Sorted (fun o1 o2 : Opportunity =>
      o2.potential_additional_wins ≤ o1.potential_additional_wins)
      (get_improvement_opportunities sf df) := by
  refine ⟨?_, ?_, ?_⟩
  · intro o ho
    unfold get_improvement_opportunities at ho
    have hbase := (List.mem_insertionSort _).1 ho
    rcases List.mem_flatMap.1 hbase with ⟨fr, hfr, hin⟩
    by_cases hrep : fr.1 = Factor.sales_rep_id
    · rw [if_pos hrep] at hin
      exact absurd hin (List.not_mem_nil o)
    · rw [if_neg hrep] at hin
      rcases List.mem_filterMap.1 hin with ⟨cst, hcst, hsome⟩
      by_cases hcond : cst.win_rate_diff < -5 ∧ 100 < cst.deal_count
      · rw [if_pos hcond] at hsome
        have ho_eq := Option.some.inj hsome
        subst ho_eq
        refine ⟨fr, hfr, cst, hcst, hrep, rfl, rfl, hcond.1, hcond.2, rfl, ?_⟩
        show (if cst.win_rate_diff < (-10 : ℚ) then "High" else "Medium") = "High"
          ↔ cst.win_rate_diff < -10
        by_cases hp : cst.win_rate_diff < (-10 : ℚ)
        · rw [if_pos hp]
          exact ⟨fun _ => hp, fun _ => rfl⟩
        · rw [if_neg hp]
          exact ⟨fun hx => absurd hx (by decide), fun hx => absurd hx hp⟩
      · rw [if_neg hcond] at hsome
        exact absurd hsome (by simp)
  · intro fr hfr hrep cst hcst hdiff hcount
    refine ⟨Opportunity.mk fr.1 cst.category (round1 cst.win_rate)
      (round1 cst.win_rate_diff) cst.deal_count
      (⌊|cst.win_rate_diff| / 100 * (cst.deal_count : ℚ)⌋)
      (if cst.win_rate_diff < (-10 : ℚ) then "High" else "Medium")
      (generate_recommendation fr.1 cst.category), ?_, rfl, rfl⟩
    unfold get_improvement_opportunities
    apply (List.mem_insertionSort _).2
    apply List.mem_flatMap.2
    refine ⟨fr, hfr, ?_⟩
    rw [if_neg hrep]
    exact List.mem_filterMap.2 ⟨cst, hcst, by rw [if_pos ⟨hdiff, hcount⟩]⟩
  · unfold get_improvement_opportunities
    haveI hto : IsTotal Opportunity (fun o1 o2 =>
        o2.potential_additional_wins ≤ o1.potential_additional_wins) :=
      ⟨fun a b => le_total b.potential_additional_wins a.potential_additional_wins⟩
    haveI htr : IsTrans Opportunity (fun o1 o2 =>
        o2.potential_additional_wins ≤ o1.potential_additional_wins) :=
      ⟨fun _ _ _ hab hbc => le_trans hbc hab⟩
    exact List.sorted_insertionSort _ _

/-- Witness for C7: the opportunity list of the concrete two-region
dataset is sorted by recoverable wins descending. -/
theorem C7_opportunities_witness :
    List.Sorted (fun o1 o2 : Opportunity =>
      o2.potential_additional_wins ≤ o1.potential_additional_wins)
      (get_improvement_opportunities sfZero twoCatDf) :=
  (C7_opportunities sfZero twoCatDf).2.2

/-- C9: the factor ranking comes from the results sorted by Cramér's V
descending, and re-running on an identical dataset yields the identical
ranking (the embedding is a pure function of its input). -/
theorem C9_ranking (sf : ℚ → ℕ → ℚ) (df : List Deal) :
    List.Sorted (fun a b : Factor × FactorResult =>
      Real.sqrt (b.2.cramers_v_sq : ℝ) ≤ Real.sqrt (a.2.cramers_v_sq : ℝ))
      (ranked_results sf df) ∧
    factor_ranking sf df = (ranked_results sf df).map Prod.fst ∧
    ∀ df2, df = df2 → factor_ranking sf df = factor_ranking sf df2 := by
  refine ⟨?_, rfl, fun df2 hdf => by rw [hdf]⟩
  have hs : List.Sorted (fun a b : Factor × FactorResult =>
      b.2.cramers_v_sq ≤ a.2.cramers_v_sq) (ranked_results sf df) := by
    unfold ranked_results
    haveI hto : IsTotal (Factor × FactorResult) (fun a b =>
        b.2.cramers_v_sq ≤ a.2.cramers_v_sq) :=
      ⟨fun a b => le_total b.2.cramers_v_sq a.2.cramers_v_sq⟩
    haveI htr : IsTrans (Factor × FactorResult) (fun a b =>
        b.2.cramers_v_sq ≤ a.2.cramers_v_sq) :=
      ⟨fun _ _ _ hab hbc => le_trans hbc hab⟩
    exact List.sorted_insertionSort _ _
  exact hs.imp (fun hab => Real.sqrt_le_sqrt (by exact_mod_cast hab))

/-- Witness for C9: re-running the ranking on the identical concrete
dataset reproduces it. -/
theorem C9_ranking_witness :
    factor_ranking sfZero twoCatDf = factor_ranking sfZero twoCatDf :=
  (C9_ranking sfZero twoCatDf).2.2 twoCatDf rfl
